import Mathlib

/-!
Verification of the scheduling, tag-trimming, request-body and upload-loop
logic of `upload_on_youtube.py`.

Embedding conventions:
* Instants are modelled as minutes on the Europe/Paris wall clock, counted
  from 1970-01-01 00:00 (`datetime` values all have `second = 0` and
  `microsecond = 0` in the script: `replace(..., second=0, microsecond=0)`
  for DAILY/EVERY_THREE_DAYS and `strptime("%Y-%m-%d")` for MANUAL, so a
  minute-granular timeline is exact).  `timedelta(days=k)` is `k * 1440`
  minutes.
* The fixed UTC offset of the run is a parameter `off` (in minutes) where a
  conversion to UTC happens (`astimezone(pytz.UTC)`), matching pytz
  arithmetic which keeps the offset captured at `datetime.now(paris)`.
* Progress fractions are modelled as rationals; the Python float literal
  `0.05` is the step `1/20`.
* The chunked-transfer loop is driven by a list of predetermined chunk
  results (`next_chunk()` either returns a pair or raises), and the
  interactive mode choice is a parameter of `planner`.
-/

namespace UploadOnYoutube

/-- `UPLOAD_HOUR = 10` from the script's CONFIG block (10:00 Europe/Paris). -/
def UPLOAD_HOUR : Nat := 10

/-- `MIN_MARGIN_MIN = 20` from the script's CONFIG block (minutes). -/
def MIN_MARGIN_MIN : Nat := 20

/-- `CATEGORY_ID = "28"` from the script's CONFIG block. -/
def CATEGORY_ID : String := "28"

/-- `PROGRESS_STEP = 0.05` from the script's CONFIG block, as the rational 1/20. -/
def PROGRESS_STEP : ℚ := 1 / 20

/-- `next_valid(dt, now, margin)`: return `dt` if `dt >= now + margin`,
else clamp forward to exactly `now + margin`. -/
def next_valid (dt now margin : Nat) : Nat :=
  if dt ≥ now + margin then dt else now + margin

/-- `now.replace(hour=UPLOAD_HOUR, minute=0, second=0, microsecond=0)` on the
minute timeline: truncate to the day start and add the publish hour. -/
def base_today (now : Nat) : Nat :=
  now / 1440 * 1440 + UPLOAD_HOUR * 60

/-- The four schedule modes of `planner` (user choices 1-4). -/
inductive Mode where
  | daily
  | every3
  | immediate
  | manual
deriving DecidableEq

/-- `planner(n)` from the script, with the interactive inputs lifted to
parameters: the chosen `mode`, the current instant `now`, and for MANUAL the
day (as a day count since 1970-01-01) typed for video `k`.  Mirrors the four
branches: IMMEDIATE returns `n` `None`s; DAILY clamps
`base_today + timedelta(days=i)` per item; EVERY_THREE_DAYS clamps
`base_today + timedelta(days=1)` once and adds `timedelta(days=3*i)`;
MANUAL attaches `UPLOAD_HOUR` to each typed date and clamps. -/
def planner (mode : Mode) (n : Nat) (now : Nat) (manualDates : Nat → Nat) :
    List (Option Nat) :=
  match mode with
  | Mode.immediate => List.replicate n none
  | Mode.daily =>
      (List.range n).map fun i =>
        some (next_valid (base_today now + 1440 * i) now MIN_MARGIN_MIN)
  | Mode.every3 =>
      let start := next_valid (base_today now + 1440) now MIN_MARGIN_MIN
      (List.range n).map fun i => some (start + 3 * i * 1440)
  | Mode.manual =>
      (List.range n).map fun k =>
        some (next_valid (manualDates k * 1440 + UPLOAD_HOUR * 60) now
          MIN_MARGIN_MIN)

/-- The loop body of `trim_tags`, with `total` the running size accumulated so
far: stop at the first tag with `total + len(t) + 1 > 500`, otherwise keep the
tag and add `len(t) + 1` to the total. -/
def trimGo (total : Nat) : List String → List String
  | [] => []
  | t :: ts =>
      if total + t.length + 1 > 500 then []
      else t :: trimGo (total + t.length + 1) ts

/-- `trim_tags(tags)`: greedy left-to-right accumulation starting from
`total = 0`. -/
def trim_tags (tags : List String) : List String :=
  trimGo 0 tags

/-- Cumulative size of a tag list as the script counts it: tag length plus one
separator unit per tag. -/
def tagSize (l : List String) : Nat :=
  (l.map fun t => t.length + 1).sum

/-- Days since 1970-01-01 of a Gregorian calendar date (Hinnant's civil
calendar algorithm), used to write concrete Paris dates on the minute
timeline. -/
def daysFromCivil (y m d : Nat) : Nat :=
  let ys := if m ≤ 2 then y - 1 else y
  let era := ys / 400
  let yoe := ys % 400
  let mp := if m > 2 then m - 3 else m + 9
  let doy := (153 * mp + 2) / 5 + d - 1
  let doe := yoe * 365 + yoe / 4 - yoe / 100 + doy
  era * 146097 + doe - 719468

/-- A Paris wall-clock instant, in minutes since 1970-01-01 00:00. -/
def parisMin (y m d h mi : Nat) : Nat :=
  daysFromCivil y m d * 1440 + h * 60 + mi

/-- `next_valid` never returns less than `now + margin`. -/
theorem next_valid_ge (dt now margin : Nat) :
    now + margin ≤ next_valid dt now margin := by
  unfold next_valid
  split <;> omega

/-- Claim C1: in DAILY, EVERY_THREE_DAYS and MANUAL mode every concrete
timestamp of the plan is at least `MIN_MARGIN_MIN` (20) minutes after `now`,
and a naturally-computed instant that falls short is clamped to exactly
`now + MIN_MARGIN_MIN` (in EVERY_THREE_DAYS the clamp applies to the start,
and item `i = start + 3*i` days still satisfies the bound). -/
theorem planner_min_margin :
    (∀ dt now, dt < now + MIN_MARGIN_MIN →
      next_valid dt now MIN_MARGIN_MIN = now + MIN_MARGIN_MIN) ∧
    (∀ mode n now manualDates d, mode ≠ Mode.immediate →
      some d ∈ planner mode n now manualDates → now + MIN_MARGIN_MIN ≤ d) := by
  constructor
  · intro dt now h
    unfold next_valid
    split <;> omega
  · intro mode n now f d hmode hd
    cases mode with
    | immediate => exact absurd rfl hmode
    | daily =>
      simp only [planner, List.mem_map, List.mem_range, Option.some.injEq] at hd
      obtain ⟨i, _, hi⟩ := hd
      have h := next_valid_ge (base_today now + 1440 * i) now MIN_MARGIN_MIN
      omega
    | every3 =>
      simp only [planner, List.mem_map, List.mem_range, Option.some.injEq] at hd
      obtain ⟨i, _, hi⟩ := hd
      have h := next_valid_ge (base_today now + 1440) now MIN_MARGIN_MIN
      omega
    | manual =>
      simp only [planner, List.mem_map, List.mem_range, Option.some.injEq] at hd
      obtain ⟨k, _, hk⟩ := hd
      have h := next_valid_ge (f k * 1440 + UPLOAD_HOUR * 60) now MIN_MARGIN_MIN
      omega

/-- Witness for C1 at concrete inputs: the clamp fires at `dt = 0, now = 0`,
and the single DAILY item at `now = 0` is at least 20 minutes ahead. -/
theorem planner_min_margin_witness :
    next_valid 0 0 MIN_MARGIN_MIN = 0 + MIN_MARGIN_MIN ∧
    0 + MIN_MARGIN_MIN ≤ 600 := by
  have h := planner_min_margin
  refine ⟨h.1 0 0 (by decide), ?_⟩
  exact h.2 Mode.daily 1 0 (fun _ => 0) 600 (by decide) (by decide)

/-- `trimGo` returns an initial segment of its input. -/
theorem trimGo_isPrefixOf : ∀ (l : List String) (t : Nat), trimGo t l <+: l := by
  intro l
  induction l with
  | nil => intro t; exact ⟨[], rfl⟩
  | cons x xs ih =>
    intro t
    unfold trimGo
    split
    · exact ⟨x :: xs, rfl⟩
    · obtain ⟨r, hr⟩ := ih (t + x.length + 1)
      exact ⟨r, by rw [List.cons_append, hr]⟩

/-- The accumulated total plus the size of what `trimGo` keeps stays within
the 500 budget, provided the incoming total does. -/
theorem trimGo_size : ∀ (l : List String) (t : Nat), t ≤ 500 →
    t + tagSize (trimGo t l) ≤ 500 := by
  intro l
  induction l with
  | nil => intro t ht; simpa [trimGo, tagSize] using ht
  | cons x xs ih =>
    intro t ht
    unfold trimGo
    split
    · simpa [tagSize] using ht
    · have h := ih (t + x.length + 1) (by omega)
      simp only [tagSize, List.map_cons, List.sum_cons] at h ⊢
      omega

/-- Any initial segment of the input that fits in the remaining budget is an
initial segment of what `trimGo` keeps: `trimGo` is maximal. -/
theorem trimGo_max : ∀ (l p : List String) (t : Nat), p <+: l →
    t + tagSize p ≤ 500 → p <+: trimGo t l := by
  intro l
  induction l with
  | nil =>
    intro p t hp _
    have : p = [] := List.prefix_nil.mp hp
    subst this
    exact ⟨[], rfl⟩
  | cons x xs ih =>
    intro p t hp hsize
    cases p with
    | nil => exact ⟨trimGo t (x :: xs), rfl⟩
    | cons y p2 =>
      obtain ⟨r, hr⟩ := hp
      have hyx : y = x := by
        have := congrArg (fun l => l.head?) hr
        simpa using this
      subst hyx
      have hp2 : p2 <+: xs := by
        refine ⟨r, ?_⟩
        have := congrArg (fun l => l.tail) hr
        simpa using this
      simp only [tagSize, List.map_cons, List.sum_cons] at hsize
      unfold trimGo
      split
      · omega
      · obtain ⟨r2, hr2⟩ := ih p2 (t + y.length + 1) hp2 (by simp only [tagSize]; omega)
        exact ⟨r2, by rw [List.cons_append, hr2]⟩

/-- Claim C2: `trim_tags` returns an initial segment of the input in original
order whose cumulative size (length + 1 separator unit per tag) is at most
500, and it is the longest such initial segment (so the first overflowing tag
and everything after it are dropped, and a tag landing exactly on 500 is
kept). -/
theorem trim_tags_spec :
    ∀ tags : List String,
      trim_tags tags <+: tags ∧
      tagSize (trim_tags tags) ≤ 500 ∧
      ∀ p, p <+: tags → tagSize p ≤ 500 → p <+: trim_tags tags := by
  intro tags
  refine ⟨trimGo_isPrefixOf tags 0, ?_, ?_⟩
  · have h := trimGo_size tags 0 (by omega)
    simpa [trim_tags] using h
  · intro p hp hs
    exact trimGo_max tags p 0 hp (by omega)

/-- Witness for C2: on `["a", "b"]` the whole input is kept, its size is
within budget, and the fitting initial segment `["a"]` is an initial segment
of the result. -/
theorem trim_tags_spec_witness :
    trim_tags ["a", "b"] <+: ["a", "b"] ∧
    tagSize (trim_tags ["a", "b"]) ≤ 500 ∧
    ["a"] <+: trim_tags ["a", "b"] := by
  have h := trim_tags_spec ["a", "b"]
  exact ⟨h.1, h.2.1, h.2.2 ["a"] ⟨["b"], rfl⟩ (by decide)⟩

/-- Re-running `trimGo` on what it kept, with the same starting total,
changes nothing. -/
theorem trimGo_trimGo : ∀ (l : List String) (t : Nat),
    trimGo t (trimGo t l) = trimGo t l := by
  intro l
  induction l with
  | nil => intro t; rfl
  | cons x xs ih =>
    intro t
    by_cases h : t + x.length + 1 > 500
    · simp [trimGo, h]
    · simp only [trimGo, if_neg h]
      rw [ih (t + x.length + 1)]

/-- Claim C10: `trim_tags` is idempotent — re-trimming an already-trimmed tag
list changes nothing. -/
theorem trim_tags_idempotent :
    ∀ tags : List String, trim_tags (trim_tags tags) = trim_tags tags := by
  intro tags
  exact trimGo_trimGo tags 0

/-- Claim C8: in EVERY_THREE_DAYS mode with count 3, consecutive plan items
are exactly 3 days (3 * 1440 minutes) apart, for every `now`. -/
theorem every3_spacing :
    ∀ (now : Nat) (manualDates : Nat → Nat), ∃ a b c,
      planner Mode.every3 3 now manualDates = [some a, some b, some c] ∧
      b = a + 3 * 1440 ∧ c = b + 3 * 1440 := by
  intro now f
  refine ⟨next_valid (base_today now + 1440) now MIN_MARGIN_MIN,
    next_valid (base_today now + 1440) now MIN_MARGIN_MIN + 3 * 1440,
    next_valid (base_today now + 1440) now MIN_MARGIN_MIN + 3 * 1440 + 3 * 1440,
    ?_, rfl, rfl⟩
  simp only [planner, List.range_succ, List.range_zero, List.map_append,
    List.map_cons, List.map_nil, List.nil_append, List.cons_append,
    Option.some.injEq]
  norm_num

/-- Counterexample to claim C3 as stated: with a batch of 2 in DAILY mode at
`now` = 2024-03-01 09:30 Paris and publish hour 10:00, the plan is not
`[2024-03-02 10:00, 2024-03-03 10:00]` — today's 10:00 has not passed yet
(it is 30 minutes ahead, beyond the 20-minute margin), so no entry is pushed
to the next day. -/
theorem daily_scenario_counterexample :
    planner Mode.daily 2 (parisMin 2024 3 1 9 30) (fun _ => 0) ≠
      [some (parisMin 2024 3 2 10 0), some (parisMin 2024 3 3 10 0)] := by
  decide

/-- Claim C3 amended: with a batch of 2 in DAILY mode at `now` = 2024-03-01
09:30 Paris and publish hour 10:00, the planner returns
`[2024-03-01 10:00 Paris, 2024-03-02 10:00 Paris]` — the first entry is
today's 10:00, unclamped, since it is still more than 20 minutes ahead — and
both entries are at least 20 minutes after `now`. -/
theorem daily_scenario_amended :
    planner Mode.daily 2 (parisMin 2024 3 1 9 30) (fun _ => 0) =
      [some (parisMin 2024 3 1 10 0), some (parisMin 2024 3 2 10 0)] ∧
    parisMin 2024 3 1 9 30 + MIN_MARGIN_MIN ≤ parisMin 2024 3 1 10 0 ∧
    parisMin 2024 3 1 9 30 + MIN_MARGIN_MIN ≤ parisMin 2024 3 2 10 0 := by
  refine ⟨?_, by decide, by decide⟩
  decide

/-- The decimal digit character for `n % 10` (one `%d` output position). -/
def digitChar (n : Nat) : Char :=
  match n % 10 with
  | 0 => '0'
  | 1 => '1'
  | 2 => '2'
  | 3 => '3'
  | 4 => '4'
  | 5 => '5'
  | 6 => '6'
  | 7 => '7'
  | 8 => '8'
  | _ => '9'

/-- Decimal digit characters of `n`, most significant first (the `%d`
rendering used inside `strftime`). -/
def natChars (n : Nat) : List Char :=
  if _h : n < 10 then [digitChar n]
  else natChars (n / 10) ++ [digitChar (n % 10)]
decreasing_by exact Nat.div_lt_self (by omega) (by omega)

/-- `%02d`: two-position zero-padded decimal rendering. -/
def pad2 (n : Nat) : String :=
  ⟨List.replicate (2 - (natChars n).length) '0' ++ natChars n⟩

/-- `%Y` (glibc zero-pads the year to four positions). -/
def pad4 (n : Nat) : String :=
  ⟨List.replicate (4 - (natChars n).length) '0' ++ natChars n⟩

/-- Gregorian calendar date (year, month, day) of a day count since
1970-01-01 (Hinnant's civil calendar algorithm), the calendar arithmetic
behind `strftime("%Y-%m-%d...")` on the UTC value. -/
def civilFromDays (z : Nat) : Nat × Nat × Nat :=
  let z2 := z + 719468
  let era := z2 / 146097
  let doe := z2 % 146097
  let yoe := (doe - doe / 1460 + doe / 36524 - doe / 146096) / 365
  let y := yoe + era * 400
  let doy := doe - (365 * yoe + yoe / 4 - yoe / 100)
  let mp := (5 * doy + 2) / 153
  let d := doy - (153 * mp + 2) / 5 + 1
  let m := if mp < 10 then mp + 3 else mp - 9
  (if m ≤ 2 then y + 1 else y, m, d)

/-- `iso(dt)` from the script:
`dt.astimezone(pytz.UTC).strftime("%Y-%m-%dT%H:%M:%SZ")`.  On the minute
timeline the UTC value is `t - off` for the run's fixed UTC offset `off`
(in minutes), and the seconds position is always `00` since every planner
instant has `second = 0`. -/
def iso (off : Nat) (t : Nat) : String :=
  let u := t - off
  let ymd := civilFromDays (u / 1440)
  pad4 ymd.1 ++ "-" ++ pad2 ymd.2.1 ++ "-" ++ pad2 ymd.2.2 ++ "T" ++
    pad2 (u % 1440 / 60) ++ ":" ++ pad2 (u % 60) ++ ":" ++ pad2 0 ++ "Z"

/-- The metadata record read from `metadata.json`: the three keys the script
looks up with `.get`, each possibly absent. -/
structure VideoMeta where
  title : Option String
  description : Option String
  tags : Option (List String)

/-- The `snippet` block of the request body. -/
structure SnippetBlock where
  title : String
  description : String
  tags : List String
  categoryId : String
  defaultLanguage : String

/-- The `status` block of the request body; `publishAt` is present only when
scheduled. -/
structure StatusBlock where
  privacyStatus : String
  selfDeclaredMadeForKids : Bool
  publishAt : Option String

/-- The request body built by `upload`. -/
structure RequestBody where
  snippet : SnippetBlock
  status : StatusBlock

/-- The `body` dictionary constructed at the top of `upload`: snippet from the
metadata (with the video stem and `""` as defaults, trimmed tags, fixed
category and language) and status (`"public"` iff the plan entry is the
immediate marker `None`, `selfDeclaredMadeForKids = False`, and `publishAt =
iso(when)` added only when `when` is not `None`). -/
def uploadBody (off : Nat) (stem : String) (meta : VideoMeta)
    (when : Option Nat) : RequestBody :=
  { snippet :=
      { title := meta.title.getD stem
        description := meta.description.getD ""
        tags := trim_tags (meta.tags.getD [])
        categoryId := CATEGORY_ID
        defaultLanguage := "fr" }
    status :=
      { privacyStatus := if when.isNone then "public" else "private"
        selfDeclaredMadeForKids := false
        publishAt := when.map (iso off) } }

/-- `digitChar` is never a decimal point. -/
theorem digitChar_ne_dot (n : Nat) : digitChar n ≠ '.' := by
  unfold digitChar
  split <;> decide

/-- No character of the decimal rendering is a decimal point. -/
theorem natChars_ne_dot (n : Nat) : ∀ c ∈ natChars n, c ≠ '.' := by
  induction n using Nat.strong_induction_on with
  | _ n ih =>
    intro c hc
    unfold natChars at hc
    split at hc
    · simp only [List.mem_singleton] at hc
      subst hc
      exact digitChar_ne_dot n
    · rcases List.mem_append.mp hc with h | h
      · exact ih (n / 10) (Nat.div_lt_self (by omega) (by omega)) c h
      · simp only [List.mem_singleton] at h
        subst h
        exact digitChar_ne_dot (n % 10)

/-- No character of `pad2` is a decimal point. -/
theorem pad2_ne_dot (n : Nat) : ∀ c ∈ (pad2 n).data, c ≠ '.' := by
  intro c hc
  have hc2 : c ∈ List.replicate (2 - (natChars n).length) '0' ++ natChars n := hc
  rcases List.mem_append.mp hc2 with h | h
  · rw [List.eq_of_mem_replicate h]; decide
  · exact natChars_ne_dot n c h

/-- No character of `pad4` is a decimal point. -/
theorem pad4_ne_dot (n : Nat) : ∀ c ∈ (pad4 n).data, c ≠ '.' := by
  intro c hc
  have hc2 : c ∈ List.replicate (4 - (natChars n).length) '0' ++ natChars n := hc
  rcases List.mem_append.mp hc2 with h | h
  · rw [List.eq_of_mem_replicate h]; decide
  · exact natChars_ne_dot n c h

/-- No character of the rendered timestamp is a decimal point: fractional
seconds are never emitted. -/
theorem iso_ne_dot (off t : Nat) : ∀ c ∈ (iso off t).data, c ≠ '.' := by
  intro c hc
  simp only [iso, String.data_append, List.mem_append] at hc
  rcases hc with
    ((((((((((h | h) | h) | h) | h) | h) | h) | h) | h) | h) | h) | h <;>
  first
    | exact pad4_ne_dot _ c h
    | exact pad2_ne_dot _ c h
    | (simp only [List.mem_cons, List.not_mem_nil, or_false] at h
       subst h
       decide)

/-- Claim C4: the request body's status block has `privacyStatus = "public"`
exactly when the plan entry is the immediate marker and `"private"` otherwise;
`selfDeclaredMadeForKids` is false; `publishAt` is present exactly when the
entry is not immediate, and then it is the instant converted to UTC (offset
subtracted) and rendered `%Y-%m-%dT%H:%M:%SZ`: date and time positions to
second precision, a literal `Z` suffix, and no decimal point anywhere (no
fractional seconds). -/
theorem uploadBody_status_spec :
    ∀ (off : Nat) (stem : String) (meta : VideoMeta) (when : Option Nat),
      (uploadBody off stem meta when).status.selfDeclaredMadeForKids = false ∧
      ((uploadBody off stem meta when).status.privacyStatus = "public" ↔
        when = none) ∧
      ((uploadBody off stem meta when).status.privacyStatus = "private" ↔
        when ≠ none) ∧
      ((uploadBody off stem meta when).status.publishAt = none ↔
        when = none) ∧
      ∀ t, when = some t →
        (uploadBody off stem meta when).status.publishAt =
          some (iso off t) ∧
        (∃ y mo d h mi,
          (y, mo, d) = civilFromDays ((t - off) / 1440) ∧
          h = (t - off) % 1440 / 60 ∧ mi = (t - off) % 60 ∧
          iso off t = pad4 y ++ "-" ++ pad2 mo ++ "-" ++ pad2 d ++ "T" ++
            pad2 h ++ ":" ++ pad2 mi ++ ":" ++ pad2 0 ++ "Z") ∧
        (∀ c ∈ (iso off t).data, c ≠ '.') := by
  intro off stem meta when
  cases when with
  | none =>
    refine ⟨rfl, by simp [uploadBody], by simp [uploadBody], by simp [uploadBody], ?_⟩
    intro t ht
    cases ht
  | some t0 =>
    refine ⟨rfl, by simp [uploadBody], by simp [uploadBody], by simp [uploadBody], ?_⟩
    intro t ht
    have h1 : t0 = t := by injection ht
    subst h1
    refine ⟨rfl, ?_, iso_ne_dot off t0⟩
    exact ⟨(civilFromDays ((t0 - off) / 1440)).1,
      (civilFromDays ((t0 - off) / 1440)).2.1,
      (civilFromDays ((t0 - off) / 1440)).2.2,
      (t0 - off) % 1440 / 60, (t0 - off) % 60,
      rfl, rfl, rfl, rfl⟩

/-- Witness for C4: a concrete scheduled body (offset 60 minutes, instant
2024-03-02 10:00 Paris) is private, not for kids, and carries a rendered
`publishAt`. -/
theorem uploadBody_status_spec_witness :
    (uploadBody 60 "stem" ⟨none, none, none⟩
      (some (parisMin 2024 3 2 10 0))).status.publishAt =
        some (iso 60 (parisMin 2024 3 2 10 0)) ∧
    ((uploadBody 60 "stem" ⟨none, none, none⟩
      (some (parisMin 2024 3 2 10 0))).status.privacyStatus = "private" ↔
        (some (parisMin 2024 3 2 10 0) : Option Nat) ≠ none) := by
  have h := uploadBody_status_spec 60 "stem" ⟨none, none, none⟩
    (some (parisMin 2024 3 2 10 0))
  exact ⟨(h.2.2.2.2 (parisMin 2024 3 2 10 0) rfl).1, h.2.2.1⟩

/-- One behaviour of `request.next_chunk()`: either it returns a pair
`(status, resp)` — with `status.progress()` when a status object is present
and the final response's id when the upload finished — or it raises an
`HttpError`. -/
inductive ChunkRes where
  | ok (progress : Option ℚ) (resp : Option String)
  | err (e : String)
deriving DecidableEq

/-- Terminal result of the upload loop: the final item's id, or the surfaced
transport/API error. -/
inductive Outcome where
  | done (id : String)
  | failed (e : String)
deriving DecidableEq

/-- The `while resp is None` loop of `upload`, driven by the predetermined
chunk behaviours and the `last_shown` accumulator (initially `0.0`).  Returns
the terminal outcome (`none` if the behaviour list is exhausted while still
looping), the number of `next_chunk` calls performed, and the progress
fractions surfaced (printed) in order.  Each iteration first surfaces the
fraction when `status` is present and has advanced by at least
`PROGRESS_STEP` since `last_shown` (updating `last_shown`), then stops if
`resp` arrived; a raised error ends the loop at once and is surfaced. -/
def runSession : List ChunkRes → ℚ → Option Outcome × Nat × List ℚ
  | [], _ => (none, 0, [])
  | ChunkRes.err e :: _, _ => (some (Outcome.failed e), 1, [])
  | ChunkRes.ok st resp :: rest, last =>
      let step : ℚ × List ℚ :=
        match st with
        | some p => if p - last ≥ PROGRESS_STEP then (p, [p]) else (last, [])
        | none => (last, [])
      match resp with
      | some id => (some (Outcome.done id), 1, step.2)
      | none =>
          let r := runSession rest step.1
          (r.1, r.2.1 + 1, step.2 ++ r.2.2)

/-- A folder of the batch, with the predetermined transfer behaviour of its
upload. -/
structure Folder where
  name : String
  chunks : List ChunkRes

/-- Observable actions of the `main` loop, per folder: the upload attempt,
the archive move into `0.DONE`, and the error log of the `except` branch. -/
inductive Event where
  | attempt (name : String)
  | archived (name : String)
  | errorLogged (name : String) (e : String)
deriving DecidableEq

/-- The terminal outcome of one folder's upload session. -/
def sessionOutcome (f : Folder) : Option Outcome :=
  (runSession f.chunks 0).1

/-- One iteration of the `for folder, when in zip(...)` loop of `main`: try
the upload (one session), then move the folder into `0.DONE` on success; on
an exception log the error against the folder and fall through. -/
def processFolder (f : Folder) : List Event :=
  Event.attempt f.name ::
    match sessionOutcome f with
    | some (Outcome.done _) => [Event.archived f.name]
    | some (Outcome.failed e) => [Event.errorLogged f.name e]
    | none => []

/-- The whole `main` loop over the batch, folders processed strictly in
order. -/
def processBatch (fs : List Folder) : List Event :=
  (fs.map processFolder).flatten

/-- The names of the folders whose upload was attempted, in order. -/
def attemptNames (evs : List Event) : List String :=
  evs.filterMap fun e =>
    match e with
    | Event.attempt n => some n
    | _ => none

/-- The names of the folders handed to the archiver, in order. -/
def archivedNames (evs : List Event) : List String :=
  evs.filterMap fun e =>
    match e with
    | Event.archived n => some n
    | _ => none

/-- The names of the folders an error was recorded against, in order. -/
def errorNames (evs : List Event) : List String :=
  evs.filterMap fun e =>
    match e with
    | Event.errorLogged n _ => some n
    | _ => none

/-- Whether a session outcome is success. -/
def isDone : Option Outcome → Bool
  | some (Outcome.done _) => true
  | _ => false

/-- Whether a session outcome is failure. -/
def isFailed : Option Outcome → Bool
  | some (Outcome.failed _) => true
  | _ => false

/-- Every surfaced fraction advances by at least `PROGRESS_STEP` over the
`last_shown` value the loop started from, and so do consecutive surfaced
fractions among themselves. -/
theorem runSession_chain (chunks : List ChunkRes) :
    ∀ last : ℚ, List.Chain (fun a b => a + PROGRESS_STEP ≤ b) last
      (runSession chunks last).2.2 := by
  induction chunks with
  | nil => intro last; exact List.Chain.nil
  | cons c rest ih =>
    intro last
    cases c with
    | err e => exact List.Chain.nil
    | ok st resp =>
      cases st with
      | none =>
        cases resp with
        | some id => exact List.Chain.nil
        | none => simpa [runSession] using ih last
      | some p =>
        by_cases hp : p - last ≥ PROGRESS_STEP
        · cases resp with
          | some id =>
            simp only [runSession, if_pos hp]
            exact List.Chain.cons (by linarith) List.Chain.nil
          | none =>
            simp only [runSession, if_pos hp]
            exact List.Chain.cons (by linarith) (ih p)
        · cases resp with
          | some id => simp only [runSession, if_neg hp]; exact List.Chain.nil
          | none => simpa [runSession, if_neg hp] using ih last

/-- Claim C5: during one upload session the surfaced progress fractions are
non-decreasing and every consecutive pair differs by at least
`PROGRESS_STEP` (0.05), for every chunk behaviour sequence (independent of
chunk granularity or file size). -/
theorem progress_spacing :
    ∀ chunks : List ChunkRes,
      List.Chain' (fun a b => a + PROGRESS_STEP ≤ b)
        (runSession chunks 0).2.2 ∧
      List.Chain' (fun a b : ℚ => a ≤ b) (runSession chunks 0).2.2 := by
  intro chunks
  have h := runSession_chain chunks 0
  have h1 : List.Chain' (fun a b => a + PROGRESS_STEP ≤ b)
      (runSession chunks 0).2.2 := by
    cases hs : (runSession chunks 0).2.2 with
    | nil => exact List.chain'_nil
    | cons x xs =>
      rw [hs] at h
      exact (List.chain_cons.mp h).2
  refine ⟨h1, ?_⟩
  exact List.Chain'.imp (fun a b hab => by
    have : (0 : ℚ) < PROGRESS_STEP := by norm_num [PROGRESS_STEP]
    linarith) h1

/-- If every chunk call before position `k` keeps the loop going, and the
call at position `k` raises, the session fails with that error after exactly
`k + 1` calls. -/
theorem runSession_err (e : String) (post : List ChunkRes) :
    ∀ (pre : List ChunkRes) (last : ℚ),
      (∀ c ∈ pre, ∃ st, c = ChunkRes.ok st none) →
      (runSession (pre ++ ChunkRes.err e :: post) last).1 =
        some (Outcome.failed e) ∧
      (runSession (pre ++ ChunkRes.err e :: post) last).2.1 =
        pre.length + 1 := by
  intro pre
  induction pre with
  | nil => intro last _; exact ⟨rfl, rfl⟩
  | cons c cs ih =>
    intro last hpre
    obtain ⟨st, hc⟩ := hpre c (List.mem_cons_self _ _)
    subst hc
    have hcs : ∀ c ∈ cs, ∃ st, c = ChunkRes.ok st none := by
      intro c hc
      exact hpre c (List.mem_cons_of_mem _ hc)
    cases st with
    | none =>
      have h := ih last hcs
      simp only [runSession, List.cons_append, List.length_cons, List.append_eq]
      exact ⟨h.1, by rw [h.2]⟩
    | some p =>
      by_cases hp : p - last ≥ PROGRESS_STEP
      · have h := ih p hcs
        simp only [runSession, List.cons_append, List.length_cons, List.append_eq, if_pos hp]
        exact ⟨h.1, by rw [h.2]⟩
      · have h := ih last hcs
        simp only [runSession, List.cons_append, List.length_cons, List.append_eq, if_neg hp]
        exact ⟨h.1, by rw [h.2]⟩

/-- Claim C6: a chunk call that raises makes the session fail with that very
error after exactly the calls already made plus the raising one — no further
chunk calls, and no retry: across a whole batch each folder's upload is
attempted exactly as many times as the folder occurs in the batch, whatever
the outcomes. -/
theorem failStop_no_retry :
    (∀ (pre post : List ChunkRes) (e : String),
      (∀ c ∈ pre, ∃ st, c = ChunkRes.ok st none) →
      (runSession (pre ++ ChunkRes.err e :: post) 0).1 =
        some (Outcome.failed e) ∧
      (runSession (pre ++ ChunkRes.err e :: post) 0).2.1 =
        pre.length + 1) ∧
    (∀ (fs : List Folder) (n : String),
      (attemptNames (processBatch fs)).count n =
        (fs.map Folder.name).count n) := by
  constructor
  · intro pre post e hpre
    exact runSession_err e post pre 0 hpre
  · intro fs n
    have h : ∀ gs : List Folder,
        attemptNames (processBatch gs) = gs.map Folder.name := by
      intro gs
      induction gs with
      | nil => rfl
      | cons g gs ihg =>
        simp only [processBatch, List.map_cons, List.flatten_cons,
          processFolder] at ihg ⊢
        simp only [attemptNames, List.filterMap_append,
          List.filterMap_cons] at ihg ⊢
        cases ho : sessionOutcome g with
        | none => simpa [attemptNames, ho] using ihg
        | some o =>
          cases o with
          | done id => simpa [attemptNames, ho] using ihg
          | failed e => simpa [attemptNames, ho] using ihg
    rw [h fs]

/-- Witness for C6: one looping chunk then an error gives `FAILED` after two
calls, and a two-folder batch has exactly one attempt for the failing
folder. -/
theorem failStop_no_retry_witness :
    (runSession [ChunkRes.ok (some (1 / 2)) none, ChunkRes.err "boom"] 0).1 =
      some (Outcome.failed "boom") ∧
    (runSession [ChunkRes.ok (some (1 / 2)) none, ChunkRes.err "boom"] 0).2.1 =
      2 ∧
    (attemptNames (processBatch
      [⟨"a", [ChunkRes.err "boom"]⟩, ⟨"b", [ChunkRes.ok none (some "id")]⟩])).count
      "a" = 1 := by
  have h := failStop_no_retry
  have h1 := h.1 [ChunkRes.ok (some (1 / 2)) none] [] "boom"
    (by intro c hc
        simp only [List.mem_singleton] at hc
        exact ⟨some (1 / 2), hc⟩)
  refine ⟨h1.1, h1.2, ?_⟩
  have h2 := h.2 [⟨"a", [ChunkRes.err "boom"]⟩,
    ⟨"b", [ChunkRes.ok none (some "id")]⟩] "a"
  rw [h2]
  decide

/-- `attemptNames` distributes over append. -/
theorem attemptNames_append (a b : List Event) :
    attemptNames (a ++ b) = attemptNames a ++ attemptNames b :=
  List.filterMap_append a b _

/-- `archivedNames` distributes over append. -/
theorem archivedNames_append (a b : List Event) :
    archivedNames (a ++ b) = archivedNames a ++ archivedNames b :=
  List.filterMap_append a b _

/-- `errorNames` distributes over append. -/
theorem errorNames_append (a b : List Event) :
    errorNames (a ++ b) = errorNames a ++ errorNames b :=
  List.filterMap_append a b _

/-- Claim C7: over the whole batch the archiver receives exactly the folders
whose session ended in `DONE`, in order and once each — never a `FAILED`
folder; an error is recorded against exactly the folders whose session ended
in `FAILED`; and every folder of the batch is attempted, in order, so one
folder's failure never aborts the batch. -/
theorem archive_once_batch_continues :
    ∀ fs : List Folder,
      archivedNames (processBatch fs) =
        (fs.filter fun f => isDone (sessionOutcome f)).map Folder.name ∧
      errorNames (processBatch fs) =
        (fs.filter fun f => isFailed (sessionOutcome f)).map Folder.name ∧
      attemptNames (processBatch fs) = fs.map Folder.name := by
  intro fs
  induction fs with
  | nil => exact ⟨rfl, rfl, rfl⟩
  | cons g gs ih =>
    obtain ⟨ih1, ih2, ih3⟩ := ih
    have hb : processBatch (g :: gs) = processFolder g ++ processBatch gs := rfl
    refine ⟨?_, ?_, ?_⟩
    · rw [hb, archivedNames_append, ih1,
        List.filter_cons]
      cases ho : sessionOutcome g with
      | none => simp [processFolder, ho, archivedNames, isDone]
      | some o =>
        cases o with
        | done id => simp [processFolder, ho, archivedNames, isDone]
        | failed e => simp [processFolder, ho, archivedNames, isDone]
    · rw [hb, errorNames_append, ih2,
        List.filter_cons]
      cases ho : sessionOutcome g with
      | none => simp [processFolder, ho, errorNames, isFailed]
      | some o =>
        cases o with
        | done id => simp [processFolder, ho, errorNames, isFailed]
        | failed e => simp [processFolder, ho, errorNames, isFailed]
    · rw [hb, attemptNames_append, ih3,
        List.map_cons]
      cases ho : sessionOutcome g with
      | none => simp [processFolder, ho, attemptNames]
      | some o =>
        cases o with
        | done id => simp [processFolder, ho, attemptNames]
        | failed e => simp [processFolder, ho, attemptNames]

end UploadOnYoutube
